import Mathlib

/-!
Verification of the protocol codec of `ticlib` (`src/ticlib/ticlib.py`),
a host-side driver for Tic stepper-motor controllers.

The Python source is shallowly embedded: byte strings become `List Nat`
(each element a byte value), Python's arbitrary-precision `int` becomes
`Nat` or `Int`, Python's arithmetic right shift `>>` on `int` becomes
floor division, Python's `&` on a (possibly negative) `int` against a
small non-negative mask is computed on the two's-complement residue
`v mod 2^64`, and fallible operations (`int('', 2)`, `int.to_bytes`
overflow, `raise RuntimeError`) return `Option`/`Except`.
-/

namespace Ticlib

/-- Python `v >> n` on an `int`: arithmetic shift, i.e. floor division by `2^n`.
`Int.fdiv` is floor division. -/
def pyShr (v : Int) (n : Nat) : Int := Int.fdiv v (2 ^ n)

/-- Python `v & m` on an `int` `v` and a non-negative mask `m < 2^64`.
Bit `i < 64` of a Python integer in two's complement equals bit `i` of
`v mod 2^64`, and the mask has no bits at or above 64, so the result is
the `Nat`-level `&&&` against the canonical residue. -/
def pyAnd (v : Int) (m : Nat) : Nat := (v.emod (2 ^ 64)).toNat &&& m

/-- `unsigned_int(value)` (ticlib.py:142): `int.from_bytes(bytearray(value), 'little')`,
the little-endian value of a byte sequence. -/
def unsigned_int (value : List Nat) : Nat :=
  value.foldr (fun b acc => b + 256 * acc) 0

/-- `boolean(bit_index, value)` (ticlib.py:108): true iff the bit at
`bit_index` (LSB = 0) of the little-endian integer formed by `value` is set. -/
def boolean (bit_index : Nat) (value : List Nat) : Bool :=
  unsigned_int value &&& (1 <<< bit_index) != 0

/-- `signed_int(value)` (ticlib.py:131): little-endian value, then subtract
`2^(8*len)` if it is at least `2^(8*len - 1)`.  (Defined for non-empty input;
Python raises on an empty byte string because of the negative shift count.) -/
def signed_int (value : List Nat) : Int :=
  let result : Int := (unsigned_int value : Int)
  if result ≥ 2 ^ (value.length * 8 - 1) then result - 2 ^ (value.length * 8) else result

/-- Fuel-driven helper for `natBitsLSB`; the fuel only forces structural
termination and is irrelevant as long as it is at least `n` (see
`natBitsAux_congr`). -/
def natBitsAux : Nat → Nat → List Nat
  | 0, _ => []
  | _ + 1, 0 => []
  | fuel + 1, n => n % 2 :: natBitsAux fuel (n / 2)

/-- The digit list of Python's `bin(n)[2:]` in reversed (LSB-first) order:
binary digits of `n` with no leading zeros, empty for `n = 0`. -/
def natBitsLSB (n : Nat) : List Nat := natBitsAux n n

/-- Python `bin(n)[2:]` as an MSB-first digit list.  `bin(0)` is `'0b0'`,
so `0` yields the single digit `0`. -/
def pyBin (n : Nat) : List Nat :=
  if n = 0 then [0] else (natBitsLSB n).reverse

/-- Python `int(bits, 2)` on an MSB-first digit string: `none` for the empty
string (`int('', 2)` raises `ValueError`). -/
def intOfBin (bits : List Nat) : Option Nat :=
  if bits.isEmpty then none else some (bits.foldl (fun a b => 2 * a + b) 0)

/-- `bit_range(start, end, value)` (ticlib.py:117): take `bin(int_value)`
without the `0b` prefix, reverse it, slice `[start : end+1]`, reverse the
slice back and parse it with `int(_, 2)`.  `none` models the `ValueError`
raised when the slice is empty. -/
def bit_range (start e : Nat) (value : List Nat) : Option Nat :=
  let binary := pyBin (unsigned_int value)
  let bits := ((binary.reverse.drop start).take (e + 1 - start)).reverse
  intOfBin bits

/-- LSB-first binary decoding, the value of a digit list produced by slicing
`natBitsLSB`.  (`intOfBin` folds MSB-first; `List.foldl_reverse` connects the two.) -/
def ofBitsLSB (l : List Nat) : Nat :=
  l.foldr (fun b a => 2 * a + b) 0

/-- One iteration of the inner loop of `_get_crc_7` (ticlib.py:2171-2174):
if the low bit is set, XOR with `0x91`, then shift right by one. -/
def crcStep (crc : Nat) : Nat :=
  if crc &&& 1 ≠ 0 then (crc ^^^ 0x91) >>> 1 else crc >>> 1

/-- The eight inner-loop iterations of `_get_crc_7` for one message byte. -/
def crcRound (crc : Nat) : Nat := crcStep^[8] crc

/-- The accumulator of `_get_crc_7` (ticlib.py:2163) after processing `message`:
starting from 0, XOR in each byte and run the eight shift steps. -/
def crc7 (message : List Nat) : Nat :=
  message.foldl (fun crc b => crcRound (crc ^^^ b)) 0

/-- `_get_crc_7(message)` returns `crc.to_bytes(1, 'little')`; `to_bytes`
raises `OverflowError` when the accumulator does not fit in one byte
(impossible for genuine byte input, as proved below). -/
def getCrc7 (message : List Nat) : Option (List Nat) :=
  if crc7 message < 256 then some [crc7 message] else none

/-- The five payload bytes of `TicSerial._send_command` for a
`THIRTY_TWO_BITS` command (ticlib.py:2205-2212), appended after the
command code: the packed-MSBs header byte followed by four 7-bit data bytes. -/
def serialPayload32 (value : Int) : List Nat :=
  [ pyAnd (pyShr value 7) 1 ||| pyAnd (pyShr value 14) 2 |||
      pyAnd (pyShr value 21) 4 ||| pyAnd (pyShr value 28) 8,
    pyAnd (pyShr value 0) 0x7F,
    pyAnd (pyShr value 8) 0x7F,
    pyAnd (pyShr value 16) 0x7F,
    pyAnd (pyShr value 24) 0x7F ]

/-- Modelled from the spec (§4.3, claim C1): the five serial `Bits32` payload
bytes as the spec describes them — header bit 0 is bit 7 of the value, bit 1
is bit 14, bit 2 is bit 21, bit 3 is bit 28, and the data bytes carry value
bits [0:7), [7:14), [14:21), [21:28).  Used only to compare against the
source-derived `serialPayload32`. -/
def specSerialPayload32 (value : Int) : List Nat :=
  let n := (value.emod (2 ^ 32)).toNat
  [ (if n.testBit 7 then 1 else 0) + (if n.testBit 14 then 2 else 0) +
      (if n.testBit 21 then 4 else 0) + (if n.testBit 28 then 8 else 0),
    n % 2 ^ 7, n / 2 ^ 7 % 2 ^ 7, n / 2 ^ 14 % 2 ^ 7, n / 2 ^ 21 % 2 ^ 7 ]

/-- `TicUSB._send_command` for a `THIRTY_TWO_BITS` command (ticlib.py:2342-2343):
the argument tuple of the single `ctrl_transfer` call. -/
def usbSend32 (command_code : Nat) (value : Int) : Nat × Nat × Nat × Nat × Nat :=
  (0x40, command_code, pyAnd value 0xFFFF, pyAnd (pyShr value 16) 0xFFFF, 0)

/-- `set_target_position` over USB: the `COMMANDS` table maps it to code
`0xE0` with format `THIRTY_TWO_BITS`, and `TicBase._define_commands` binds it
to `_send_command(0xE0, THIRTY_TWO_BITS, value)`. -/
def set_target_position_usb (value : Int) : Nat × Nat × Nat × Nat × Nat :=
  usbSend32 0xE0 value

/-- `TicUSB._block_read` (ticlib.py:2345-2355) given the bytes the control
transfer returned: length check, then raw bytes or the formatted value. -/
def usbBlockRead {α : Type} (length : Nat) (format_response : Option (List Nat → α))
    (result : List Nat) : Except String (List Nat ⊕ α) :=
  if result.length ≠ length then
    Except.error ("Expected to read " ++ toString length ++ " bytes, got " ++
      toString result.length ++ ".")
  else
    match format_response with
    | none => Except.ok (Sum.inl result)
    | some f => Except.ok (Sum.inr (f result))

/-- `TicI2C._block_read` (ticlib.py:2300-2311) given the bytes the bus read
returned: same length check and formatting as the USB adapter. -/
def i2cBlockRead {α : Type} (length : Nat) (format_response : Option (List Nat → α))
    (result : List Nat) : Except String (List Nat ⊕ α) :=
  if result.length ≠ length then
    Except.error ("Expected to read " ++ toString length ++ " bytes, got " ++
      toString result.length ++ ".")
  else
    match format_response with
    | none => Except.ok (Sum.inl result)
    | some f => Except.ok (Sum.inr (f result))

/-- `TicSerial._read_response` (ticlib.py:2246-2267) with `crc_for_responses`
set, given the bytes `port.read(length + 1)` returned: framing check, then
CRC-7 recomputation over the first `length` bytes and comparison with the
trailing byte. -/
def serialReadResponseCrc (length : Nat) (response : List Nat) : Except String (List Nat) :=
  if response.length ≠ length + 1 then
    Except.error "Response does not contain CRC byte"
  else
    let message := response.take length
    match getCrc7 message with
    | none => Except.error "OverflowError"
    | some crcBytes =>
      if [response.getLastD 0] = crcBytes then Except.ok message
      else Except.error "Response CRC check failed"

/-- Fixed-width little-endian byte encoding: `l` bytes of `n`, low byte first. -/
def littleBytes : Nat → Nat → List Nat
  | 0, _ => []
  | l + 1, n => n % 256 :: littleBytes l (n / 256)

/-- Modelled from the spec (§8, `unsigned_bytes_of`): the `l`-byte little-endian
encoding of the integer `v`, i.e. of its residue `v mod 2^(8*l)`. -/
def unsigned_bytes_of (l : Nat) (v : Int) : List Nat :=
  littleBytes l (v.emod (2 ^ (8 * l))).toNat

/-- Modelled from the spec (§4.2, claim C6): the CRC-7 algorithm exactly as
the spec words it — accumulator 0; per byte, XOR it in, then eight times
conditionally XOR with `0x91` and shift right; return the low byte of the
final accumulator. -/
def specCrcStep (acc : Nat) : Nat :=
  if acc % 2 = 1 then (acc ^^^ 0x91) >>> 1 else acc >>> 1

/-- Modelled from the spec (§4.2, claim C6): full spec-side CRC-7, returning
the low byte of the final accumulator. -/
def specCrc7 (message : List Nat) : Nat :=
  (message.foldl (fun acc b => specCrcStep^[8] (acc ^^^ b)) 0) % 256

/-- Flip bit `i` of a message: bit `i % 8` of byte `i / 8` (LSB-first within
each byte, bytes in stream order). -/
def flipBit (m : List Nat) (i : Nat) : List Nat :=
  m.set (i / 8) (m.getD (i / 8) 0 ^^^ 2 ^ (i % 8))

/-! ### Binary digit lists: the machinery behind `bit_range` -/

theorem natBitsAux_congr : ∀ f₁ f₂ n, n ≤ f₁ → n ≤ f₂ → natBitsAux f₁ n = natBitsAux f₂ n := by
  intro f₁
  induction f₁ with
  | zero =>
    intro f₂ n h₁ _
    interval_cases n
    cases f₂ <;> rfl
  | succ f ih =>
    intro f₂ n h₁ h₂
    match n, f₂ with
    | 0, f₂ => cases f₂ <;> rfl
    | m + 1, 0 => omega
    | m + 1, f₂ + 1 =>
      show (m + 1) % 2 :: natBitsAux f ((m + 1) / 2) =
        (m + 1) % 2 :: natBitsAux f₂ ((m + 1) / 2)
      rw [ih f₂ ((m + 1) / 2) (by omega) (by omega)]

theorem natBitsLSB_eq (n : Nat) :
    natBitsLSB n = if n = 0 then [] else n % 2 :: natBitsLSB (n / 2) := by
  unfold natBitsLSB
  match n with
  | 0 => rfl
  | m + 1 =>
    show (m + 1) % 2 :: natBitsAux m ((m + 1) / 2) = _
    rw [if_neg (Nat.succ_ne_zero m)]
    rw [natBitsAux_congr m ((m + 1) / 2) ((m + 1) / 2) (by omega) (le_refl _)]

theorem natBitsLSB_zero : natBitsLSB 0 = [] := rfl

theorem natBitsLSB_eq_nil_iff (n : Nat) : natBitsLSB n = [] ↔ n = 0 := by
  constructor
  · intro h
    by_contra hn
    rw [natBitsLSB_eq, if_neg hn] at h
    exact List.cons_ne_nil _ _ h
  · rintro rfl; rfl

theorem natBitsLSB_drop (s : Nat) : ∀ n, (natBitsLSB n).drop s = natBitsLSB (n / 2 ^ s) := by
  induction s with
  | zero => intro n; simp
  | succ s ih =>
    intro n
    by_cases hn : n = 0
    · subst hn; simp [natBitsLSB_zero, Nat.zero_div]
    · rw [natBitsLSB_eq, if_neg hn, List.drop_succ_cons, ih (n / 2),
        Nat.div_div_eq_div_mul]
      congr 1
      rw [pow_succ, mul_comm (2 ^ s) 2]

theorem ofBitsLSB_take : ∀ (k n : Nat), ofBitsLSB ((natBitsLSB n).take k) = n % 2 ^ k := by
  intro k
  induction k with
  | zero => intro n; simp [ofBitsLSB, Nat.mod_one]
  | succ k ih =>
    intro n
    by_cases hn : n = 0
    · subst hn; simp [natBitsLSB_zero, ofBitsLSB]
    · rw [natBitsLSB_eq, if_neg hn, List.take_succ_cons]
      show 2 * ofBitsLSB ((natBitsLSB (n / 2)).take k) + n % 2 = _
      rw [ih (n / 2)]
      have h2 : 2 ^ (k + 1) = 2 * 2 ^ k := by rw [pow_succ, mul_comm]
      rw [h2, Nat.mod_mul]
      omega

/-- Complete characterization of `bit_range` for `start ≤ e`: it yields the
arithmetic bit-field exactly when the value has a binary digit at or above
position `start` (always true for `start = 0` since `bin` never produces an
empty digit string), and raises `ValueError` (`none`) otherwise. -/
theorem bit_range_char (start e : Nat) (bytes : List Nat) (hse : start ≤ e) :
    bit_range start e bytes =
      if start = 0 ∨ 2 ^ start ≤ unsigned_int bytes then
        some (unsigned_int bytes / 2 ^ start % 2 ^ (e - start + 1))
      else none := by
  have hk : e + 1 - start = e - start + 1 := by omega
  set x := unsigned_int bytes with hx
  by_cases hx0 : x = 0
  · rw [bit_range, ← hx, hx0]
    match start, hse with
    | 0, _ =>
      rw [if_pos (Or.inl rfl)]
      show intOfBin ((([0].drop 0).take (e + 1 - 0)).reverse) = _
      have : ([0] : List Nat).take (e + 1) = [0] := by
        rw [show e + 1 = e + 1 from rfl, List.take_succ_cons, List.take_nil]
      simp only [List.drop_zero, Nat.sub_zero, this]
      simp [intOfBin, Nat.zero_mod]
    | s + 1, _ =>
      rw [if_neg (by
        have : 0 < 2 ^ (s + 1) := Nat.pos_pow_of_pos (s + 1) (by norm_num)
        omega)]
      show intOfBin ((([0].drop (s + 1)).take _).reverse) = none
      simp [intOfBin]
  · have hbin : (pyBin x).reverse = natBitsLSB x := by
      rw [pyBin, if_neg hx0, List.reverse_reverse]
    rw [bit_range, ← hx, hbin, natBitsLSB_drop, hk]
    have hcond : (start = 0 ∨ 2 ^ start ≤ x) ↔ 2 ^ start ≤ x := by
      constructor
      · rintro (rfl | h)
        · simpa using Nat.one_le_iff_ne_zero.mpr hx0
        · exact h
      · exact Or.inr
    by_cases hle : 2 ^ start ≤ x
    · rw [if_pos (hcond.mpr hle)]
      have hdiv : x / 2 ^ start ≠ 0 := by
        rw [Ne, Nat.div_eq_zero_iff (Nat.pos_pow_of_pos start (by norm_num))]
        omega
      rw [natBitsLSB_eq, if_neg hdiv, List.take_succ_cons, intOfBin]
      rw [if_neg (by simp)]
      congr 1
      rw [List.foldl_reverse]
      show ofBitsLSB (x / 2 ^ start % 2 :: (natBitsLSB (x / 2 ^ start / 2)).take (e - start)) = _
      have := ofBitsLSB_take (e - start + 1) (x / 2 ^ start)
      rw [natBitsLSB_eq, if_neg hdiv, List.take_succ_cons] at this
      exact this
    · rw [if_neg (by rw [hcond]; exact hle)]
      have hdiv : x / 2 ^ start = 0 := by
        rw [Nat.div_eq_zero_iff (Nat.pos_pow_of_pos start (by norm_num))]
        omega
      rw [hdiv, natBitsLSB_zero]
      simp [intOfBin]

/-- Claim C2 counterexample: `bit_range(4, 7, [0x0F])` — a length-1 byte
sequence with `start ≤ end` inside the encoded width — raises `ValueError`
instead of returning a value: `bin(15)` has only four digits, so the slice
`[4:8]` is empty and `int('', 2)` fails. -/
theorem bit_range_not_total : bit_range 4 7 [15] = none := by decide

/-- Claim C2 (amended): `unsigned_int`, `signed_int` and `boolean` are total
(they are plain functions in this embedding, with no failing path in the
source), but `bit_range` with `start ≤ end` returns a value exactly when
`start = 0` or the little-endian value has a binary digit at or above
position `start` (`2^start ≤ unsigned_int bytes`); in all other cases it
raises `ValueError`. -/
theorem bit_range_totality_char (start e : Nat) (bytes : List Nat) (hse : start ≤ e) :
    (bit_range start e bytes).isSome = true ↔
      (start = 0 ∨ 2 ^ start ≤ unsigned_int bytes) := by
  rw [bit_range_char start e bytes hse]
  by_cases h : start = 0 ∨ 2 ^ start ≤ unsigned_int bytes
  · simp [h]
  · simp [h]

/-- Witness for the amended claim C2 at a concrete input. -/
theorem bit_range_totality_char_witness :
    (4 ≤ 7 ∧ ¬((4 : Nat) = 0 ∨ 2 ^ 4 ≤ unsigned_int [15])) ∧
      ¬(bit_range 4 7 [15]).isSome = true :=
  ⟨⟨by decide, by decide⟩,
    fun h => (by decide : ¬((4 : Nat) = 0 ∨ 2 ^ 4 ≤ unsigned_int [15]))
      ((bit_range_totality_char 4 7 [15] (by decide)).mp h)⟩

/-- Claim C3 counterexample: for `bytes = [0]`, `start = 1`, `end = 2`
(indices within the 8-bit width), `bit_range` raises `ValueError` instead of
returning `(unsigned_int [0] >> 1) & 0b11 = 0`: `bin(0)` is the single digit
`'0'`, so the slice `[1:3]` is empty. -/
theorem bit_range_formula_fails :
    bit_range 1 2 [0] ≠ some ((unsigned_int [0] >>> 1) &&& (1 <<< (2 - 1 + 1) - 1)) := by
  decide

/-- Claim C3 (amended): whenever `start ≤ end` and the slice is non-empty
(`start = 0`, or the value has a digit at or above position `start`),
`bit_range(start, end, bytes)` equals
`(unsigned_int(bytes) >> start) & ((1 << (end - start + 1)) - 1)`. -/
theorem bit_range_formula (start e : Nat) (bytes : List Nat) (hse : start ≤ e)
    (hs : start = 0 ∨ 2 ^ start ≤ unsigned_int bytes) :
    bit_range start e bytes =
      some ((unsigned_int bytes >>> start) &&& (1 <<< (e - start + 1) - 1)) := by
  rw [bit_range_char start e bytes hse, if_pos hs, Nat.shiftRight_eq_div_pow,
    Nat.one_shiftLeft, Nat.and_pow_two_sub_one_eq_mod]

/-- Witness for the amended claim C3 at a concrete input:
`bit_range(2, 5, [0x34]) = (0x34 >> 2) & 0xF = 13`. -/
theorem bit_range_formula_witness :
    (2 ≤ 5 ∧ ((2 : Nat) = 0 ∨ 2 ^ 2 ≤ unsigned_int [0x34])) ∧
      bit_range 2 5 [0x34] = some ((unsigned_int [0x34] >>> 2) &&& (1 <<< (5 - 2 + 1) - 1)) :=
  ⟨⟨by decide, by decide⟩, bit_range_formula 2 5 [0x34] (by decide) (by decide)⟩

/-! ### CRC-7: linearity over GF(2), bounds, and single-bit-error detection -/

theorem shiftRight_xor (a b n : Nat) : (a ^^^ b) >>> n = a >>> n ^^^ b >>> n := by
  apply Nat.eq_of_testBit_eq
  intro i
  simp [Nat.testBit_shiftRight, Nat.testBit_xor]

theorem xor_xor_xor (x c y d : Nat) : (x ^^^ c) ^^^ (y ^^^ d) = (x ^^^ y) ^^^ (c ^^^ d) := by
  simp only [Nat.xor_assoc]
  congr 1
  rw [← Nat.xor_assoc, Nat.xor_comm c y, Nat.xor_assoc]

theorem xor_mod_two (a b : Nat) : (a ^^^ b) % 2 = a % 2 ^^^ b % 2 := by
  rw [← Nat.and_one_is_mod, Nat.and_xor_distrib_right, Nat.and_one_is_mod, Nat.and_one_is_mod]

theorem crcStep_eq (s : Nat) : crcStep s = s >>> 1 ^^^ (if s % 2 = 1 then 72 else 0) := by
  rw [crcStep, Nat.and_one_is_mod]
  rcases Nat.mod_two_eq_zero_or_one s with h | h
  · rw [h]; simp
  · rw [h]
    simp only [if_pos rfl, ne_eq, one_ne_zero, not_false_iff, if_true]
    rw [shiftRight_xor]
    rfl

theorem crcStep_xor (a b : Nat) : crcStep (a ^^^ b) = crcStep a ^^^ crcStep b := by
  rw [crcStep_eq, crcStep_eq, crcStep_eq, shiftRight_xor, xor_xor_xor, xor_mod_two]
  congr 1
  rcases Nat.mod_two_eq_zero_or_one a with h | h <;>
    rcases Nat.mod_two_eq_zero_or_one b with h' | h' <;> rw [h, h'] <;> rfl

theorem crcStep_iterate_xor (k a b : Nat) :
    crcStep^[k] (a ^^^ b) = crcStep^[k] a ^^^ crcStep^[k] b := by
  induction k generalizing a b with
  | zero => rfl
  | succ k ih =>
    rw [Function.iterate_succ_apply, Function.iterate_succ_apply,
      Function.iterate_succ_apply, crcStep_xor, ih]

theorem crcRound_xor (a b : Nat) : crcRound (a ^^^ b) = crcRound a ^^^ crcRound b :=
  crcStep_iterate_xor 8 a b

theorem crc7_fold_xor :
    ∀ (ms ns : List Nat) (a b : Nat), ms.length = ns.length →
      List.foldl (fun crc x => crcRound (crc ^^^ x)) (a ^^^ b)
          (List.zipWith (fun x y => x ^^^ y) ms ns) =
        List.foldl (fun crc x => crcRound (crc ^^^ x)) a ms ^^^
          List.foldl (fun crc x => crcRound (crc ^^^ x)) b ns := by
  intro ms
  induction ms with
  | nil =>
    intro ns a b h
    have : ns = [] := List.eq_nil_of_length_eq_zero h.symm
    subst this
    rfl
  | cons m ms ih =>
    intro ns a b h
    match ns with
    | [] => simp at h
    | n :: ns =>
      simp only [List.zipWith_cons_cons, List.foldl_cons]
      rw [xor_xor_xor, crcRound_xor, ih ns _ _ (by simpa using h)]

theorem zipWith_xor_replicate_zero :
    ∀ l : List Nat, List.zipWith (fun x y => x ^^^ y) l (List.replicate l.length 0) = l := by
  intro l
  induction l with
  | nil => rfl
  | cons a l ih => simp [List.replicate_succ, ih]

theorem set_xor_eq_zipWith :
    ∀ (m : List Nat) (j d : Nat), j < m.length →
      m.set j (m.getD j 0 ^^^ d) =
        List.zipWith (fun x y => x ^^^ y) m ((List.replicate m.length 0).set j d) := by
  intro m
  induction m with
  | nil => intro j d h; simp at h
  | cons a m ih =>
    intro j d h
    match j with
    | 0 =>
      simp only [List.getD_cons_zero, List.set_cons_zero, List.length_cons,
        List.replicate_succ, List.zipWith_cons_cons]
      rw [zipWith_xor_replicate_zero]
    | j + 1 =>
      simp only [List.getD_cons_succ, List.set_cons_succ, List.length_cons,
        List.replicate_succ, List.zipWith_cons_cons, Nat.xor_zero]
      rw [ih j d (by simpa using h)]

theorem crc7_fold_replicate_zero (k : Nat) :
    ∀ s, List.foldl (fun crc x => crcRound (crc ^^^ x)) s (List.replicate k 0) =
      crcRound^[k] s := by
  induction k with
  | zero => intro s; rfl
  | succ k ih =>
    intro s
    rw [List.replicate_succ, List.foldl_cons, Nat.xor_zero, ih,
      ← Function.iterate_succ_apply]

theorem crc7_single_bit :
    ∀ (l j v : Nat), j < l →
      crc7 ((List.replicate l 0).set j v) = crcRound^[l - j] v := by
  intro l
  induction l with
  | zero => intro j v h; omega
  | succ l ih =>
    intro j v h
    match j with
    | 0 =>
      simp only [Nat.sub_zero]
      rw [List.replicate_succ, List.set_cons_zero, crc7, List.foldl_cons, Nat.zero_xor,
        crc7_fold_replicate_zero, ← Function.iterate_succ_apply]
    | j + 1 =>
      have harith : l + 1 - (j + 1) = l - j := by omega
      rw [harith, List.replicate_succ, List.set_cons_succ, crc7, List.foldl_cons,
        Nat.zero_xor, show crcRound 0 = 0 from rfl]
      have := ih j v (by omega)
      rw [crc7] at this
      exact this

set_option maxRecDepth 8000 in
theorem crcRound_lt_of_lt : ∀ s, s < 256 → crcRound s < 128 := by decide

set_option maxRecDepth 8000 in
theorem crcRound_ne_zero : ∀ s, s < 128 → s ≠ 0 → crcRound s ≠ 0 := by decide

theorem crcRound_pow_ne_zero : ∀ r, r < 8 → crcRound (2 ^ r) ≠ 0 ∧ crcRound (2 ^ r) < 128 := by
  decide

theorem crcRound_iterate_ne_zero (k : Nat) :
    ∀ s, s ≠ 0 → s < 128 → crcRound^[k] s ≠ 0 ∧ crcRound^[k] s < 128 := by
  induction k with
  | zero => intro s h1 h2; exact ⟨h1, h2⟩
  | succ k ih =>
    intro s h1 h2
    rw [Function.iterate_succ_apply]
    exact ih _ (crcRound_ne_zero s h2 h1) (crcRound_lt_of_lt s (by omega))

theorem crc7_delta_ne_zero (l j r : Nat) (hj : j < l) (hr : r < 8) :
    crc7 ((List.replicate l 0).set j (2 ^ r)) ≠ 0 := by
  rw [crc7_single_bit l j (2 ^ r) hj]
  obtain ⟨h1, h2⟩ := crcRound_pow_ne_zero r hr
  have hlj : l - j = (l - j - 1) + 1 := by omega
  rw [hlj, Function.iterate_succ_apply]
  exact (crcRound_iterate_ne_zero (l - j - 1) (crcRound (2 ^ r)) h1 h2).1

/-- Claim C4: flipping any single bit of the message changes the CRC-7.
The CRC state map is linear over bytewise XOR, so the flipped message's CRC
is the original CRC XORed with the CRC of a one-hot message, and the latter
is never zero. -/
theorem crc7_detects_bit_flip (m : List Nat) (i : Nat) (h : i < 8 * m.length) :
    crc7 (flipBit m i) ≠ crc7 m := by
  have hj : i / 8 < m.length := by omega
  have hr : i % 8 < 8 := Nat.mod_lt i (by norm_num)
  have hflip : flipBit m i =
      List.zipWith (fun x y => x ^^^ y) m
        ((List.replicate m.length 0).set (i / 8) (2 ^ (i % 8))) :=
    set_xor_eq_zipWith m (i / 8) (2 ^ (i % 8)) hj
  have hlen : m.length = ((List.replicate m.length 0).set (i / 8) (2 ^ (i % 8))).length := by
    simp
  have key := crc7_fold_xor m ((List.replicate m.length 0).set (i / 8) (2 ^ (i % 8))) 0 0 hlen
  rw [Nat.xor_self] at key
  have hsplit : crc7 (flipBit m i) =
      crc7 m ^^^ crc7 ((List.replicate m.length 0).set (i / 8) (2 ^ (i % 8))) := by
    rw [hflip, crc7]
    exact key
  intro heq
  apply crc7_delta_ne_zero m.length (i / 8) (i % 8) hj hr
  have := hsplit.symm.trans heq
  calc crc7 ((List.replicate m.length 0).set (i / 8) (2 ^ (i % 8)))
      = crc7 m ^^^ (crc7 m ^^^ crc7 ((List.replicate m.length 0).set (i / 8) (2 ^ (i % 8)))) := by
        rw [← Nat.xor_assoc, Nat.xor_self, Nat.zero_xor]
    _ = crc7 m ^^^ crc7 m := by rw [this]
    _ = 0 := Nat.xor_self _

/-- Witness for claim C4: flipping bit 9 (byte 1, bit 1) of `[1, 2]` yields
`[1, 0]`, whose CRC differs. -/
theorem crc7_detects_bit_flip_witness :
    9 < 8 * ([1, 2] : List Nat).length ∧ crc7 (flipBit [1, 2] 9) ≠ crc7 [1, 2] :=
  ⟨by decide, crc7_detects_bit_flip [1, 2] 9 (by decide)⟩

theorem crc7_fold_lt :
    ∀ (m : List Nat) (s : Nat), s < 128 → (∀ b ∈ m, b < 256) →
      List.foldl (fun crc x => crcRound (crc ^^^ x)) s m < 128 := by
  intro m
  induction m with
  | nil => intro s hs _; exact hs
  | cons b m ih =>
    intro s hs hb
    rw [List.foldl_cons]
    apply ih
    · apply crcRound_lt_of_lt
      exact Nat.xor_lt_two_pow (n := 8) (by omega) (hb b (by simp))
    · intro x hx; exact hb x (by simp [hx])

theorem crc7_lt_128 (m : List Nat) (hb : ∀ b ∈ m, b < 256) : crc7 m < 128 :=
  crc7_fold_lt m 0 (by norm_num) hb

/-- Claim C10: for genuine byte input the CRC-7 check byte is always below
`0x80`: the eight right-shifts of each round leave at most seven significant
bits, so appending the CRC byte keeps the serial frame 7-bit clean. -/
theorem crc7_high_bit_clear (m : List Nat) (hb : ∀ b ∈ m, b < 256) :
    crc7 m < 0x80 :=
  crc7_lt_128 m hb

/-- Witness for claim C10 at a concrete message. -/
theorem crc7_high_bit_clear_witness :
    (∀ b ∈ ([0xAA, 0x01, 0x13] : List Nat), b < 256) ∧
      crc7 [0xAA, 0x01, 0x13] < 0x80 :=
  ⟨by decide, crc7_high_bit_clear [0xAA, 0x01, 0x13] (by decide)⟩

theorem specCrcStep_eq_crcStep : specCrcStep = crcStep := by
  funext s
  rw [specCrcStep, crcStep, Nat.and_one_is_mod]
  rcases Nat.mod_two_eq_zero_or_one s with h | h <;> rw [h] <;> simp

/-- Claim C6: on byte input, `_get_crc_7` succeeds and returns exactly the
byte the spec's algorithm describes (the low byte of the final accumulator —
which already fits in one byte, so `to_bytes` never overflows). -/
theorem getCrc7_eq_spec (m : List Nat) (hb : ∀ b ∈ m, b < 256) :
    getCrc7 m = some [specCrc7 m] := by
  have hfold : specCrc7 m = crc7 m % 256 := by
    rw [specCrc7, crc7, specCrcStep_eq_crcStep]
    rfl
  have hlt : crc7 m < 128 := crc7_lt_128 m hb
  rw [getCrc7, if_pos (by omega), hfold, Nat.mod_eq_of_lt (by omega)]

/-- Witness for claim C6 at a concrete message. -/
theorem getCrc7_eq_spec_witness :
    (∀ b ∈ ([0x83] : List Nat), b < 256) ∧ getCrc7 [0x83] = some [specCrc7 [0x83]] :=
  ⟨by decide, getCrc7_eq_spec [0x83] (by decide)⟩

/-! ### The 32-bit command encodings (serial and USB) -/

theorem toNat_mod (a : Int) (ha : 0 ≤ a) (n : Nat) : a.toNat % n = (a % (n : Int)).toNat := by
  have h1 : ((a.toNat % n : Nat) : Int) = a % (n : Int) := by
    push_cast
    rw [Int.toNat_of_nonneg ha]
  calc a.toNat % n = ((a.toNat % n : Nat) : Int).toNat := by rw [Int.toNat_natCast]
    _ = (a % (n : Int)).toNat := by rw [h1]

theorem toNat_div (a : Int) (ha : 0 ≤ a) (n : Nat) : a.toNat / n = (a / (n : Int)).toNat := by
  have h1 : ((a.toNat / n : Nat) : Int) = a / (n : Int) := by
    push_cast
    rw [Int.toNat_of_nonneg ha]
  calc a.toNat / n = ((a.toNat / n : Nat) : Int).toNat := by rw [Int.toNat_natCast]
    _ = (a / (n : Int)).toNat := by rw [h1]

/-- Generic modulus juggling behind the two's-complement embedding: reducing
a floor-shifted integer modulo `S` and then modulo `W` agrees with shifting
the canonical residue modulo `K * W * R`.  Instantiated with powers of two. -/
theorem ediv_emod_emod (v K W R S : Int) (hK : 0 < K) (hKW : K * W ∣ S) :
    v / K % S % W = v % (K * W * R) / K % W := by
  have hWS : W ∣ S := (dvd_mul_left W K).trans hKW
  rw [Int.emod_emod_of_dvd _ hWS]
  have hsub : v % (K * W * R) = v + -(W * R * (v / (K * W * R))) * K := by
    rw [Int.emod_def]
    ring
  rw [hsub, Int.add_mul_ediv_right _ _ (ne_of_gt hK)]
  have : v / K + -(W * R * (v / (K * W * R))) =
      v / K + -(R * (v / (K * W * R))) * W := by ring
  rw [this, Int.add_mul_emod_self]

/-- The key bridge: masking a Python-shifted value (`(v >> k) & m` with
`m < 2^w`, `k + w ≤ 32`) is the same as masking the shifted canonical 32-bit
residue of `v`. -/
theorem pyShr_mod (v : Int) (k w : Nat) (hkw : k + w ≤ 32) :
    ((pyShr v k).emod (2 ^ 64)).toNat % 2 ^ w = (v.emod (2 ^ 32)).toNat / 2 ^ k % 2 ^ w := by
  have hA : (0 : Int) ≤ (pyShr v k).emod (2 ^ 64) := Int.emod_nonneg _ (by positivity)
  have hB : (0 : Int) ≤ v.emod (2 ^ 32) := Int.emod_nonneg _ (by positivity)
  have hB' : (0 : Int) ≤ v.emod (2 ^ 32) / (((2 ^ k : Nat)) : Int) :=
    Int.ediv_nonneg hB (by positivity)
  rw [toNat_mod _ hA, toNat_div _ hB, toNat_mod _ hB']
  congr 1
  have hshr : pyShr v k = v / (2 ^ k : Int) := by
    rw [pyShr, Int.fdiv_eq_ediv _ (by positivity)]
  rw [hshr]
  have hcast : ∀ j : Nat, ((2 ^ j : Nat) : Int) = (2 : Int) ^ j := by intro j; push_cast; ring
  rw [hcast w, hcast k]
  obtain ⟨d, hd⟩ : ∃ d, 32 = k + w + d := ⟨32 - (k + w), by omega⟩
  have hM : (2 : Int) ^ 32 = 2 ^ k * 2 ^ w * 2 ^ d := by
    rw [← pow_add, ← pow_add, ← hd]
  rw [hM]
  exact ediv_emod_emod v (2 ^ k) (2 ^ w) (2 ^ d) (2 ^ 64) (by positivity)
    (by rw [← pow_add]; exact pow_dvd_pow 2 (by omega))

theorem and_congr_mod (A B m w : Nat) (hm : m < 2 ^ w) (h : A % 2 ^ w = B % 2 ^ w) :
    A &&& m = B &&& m := by
  apply Nat.eq_of_testBit_eq
  intro i
  simp only [Nat.testBit_and]
  by_cases hi : i < w
  · have hA : A.testBit i = B.testBit i := by
      have := congrArg (fun x => x.testBit i) h
      simpa [Nat.testBit_mod_two_pow, hi] using this
    rw [hA]
  · have hmi : m.testBit i = false :=
      Nat.testBit_lt_two_pow (lt_of_lt_of_le hm (Nat.pow_le_pow_right (by norm_num) (by omega)))
    simp [hmi]

/-- `(v >> k) & m` in Python equals `(n >> k) & m` on the canonical 32-bit
residue `n` of `v`, whenever the mask fits below bit `w` and `k + w ≤ 32`. -/
theorem pyAnd_pyShr (v : Int) (k w m : Nat) (hm : m < 2 ^ w) (hkw : k + w ≤ 32) :
    pyAnd (pyShr v k) m = ((v.emod (2 ^ 32)).toNat >>> k) &&& m := by
  rw [pyAnd, Nat.shiftRight_eq_div_pow]
  exact and_congr_mod _ _ m w hm (pyShr_mod v k w hkw)

theorem single_bit_and (n k j : Nat) :
    (n >>> k) &&& 2 ^ j = if n.testBit (k + j) then 2 ^ j else 0 := by
  rw [Nat.and_two_pow, Nat.testBit_shiftRight]
  cases h : n.testBit (k + j) <;> simp [h]

/-- Claim C1 counterexample: at `v = 16384 = 2^14` the serial encoder does
not produce the spec's bytes.  The code emits `[0, 0, 64, 0, 0]` (bit 14
travels inside data byte 2, which carries value bits [8:15)), while the spec
requires `[2, 0, 0, 1, 0]` (header bit 1 set and third data byte carrying
bits [14:21)). -/
theorem serialPayload32_ne_spec : serialPayload32 16384 ≠ specSerialPayload32 16384 := by
  decide

/-- Claim C1 (amended): the five serial `THIRTY_TWO_BITS` payload bytes are —
header byte with bit 0 = bit 7 of the value, bit 1 = bit 15, bit 2 = bit 23,
bit 3 = bit 31 (the dropped top bits of the four data bytes), then four data
bytes carrying value bits [0:7), [8:15), [16:23), [24:31), where "the value"
is the canonical 32-bit residue of `v`. -/
theorem serialPayload32_eq (v : Int) :
    serialPayload32 v =
      [ (if ((v.emod (2 ^ 32)).toNat).testBit 7 then 1 else 0) +
          (if ((v.emod (2 ^ 32)).toNat).testBit 15 then 2 else 0) +
          (if ((v.emod (2 ^ 32)).toNat).testBit 23 then 4 else 0) +
          (if ((v.emod (2 ^ 32)).toNat).testBit 31 then 8 else 0),
        (v.emod (2 ^ 32)).toNat % 2 ^ 7,
        (v.emod (2 ^ 32)).toNat / 2 ^ 8 % 2 ^ 7,
        (v.emod (2 ^ 32)).toNat / 2 ^ 16 % 2 ^ 7,
        (v.emod (2 ^ 32)).toNat / 2 ^ 24 % 2 ^ 7 ] := by
  set n := (v.emod (2 ^ 32)).toNat with hn
  have h0 := pyAnd_pyShr v 7 1 1 (by norm_num) (by norm_num)
  have h1 := pyAnd_pyShr v 14 2 2 (by norm_num) (by norm_num)
  have h2 := pyAnd_pyShr v 21 3 4 (by norm_num) (by norm_num)
  have h3 := pyAnd_pyShr v 28 4 8 (by norm_num) (by norm_num)
  have b0 := pyAnd_pyShr v 0 7 127 (by norm_num) (by norm_num)
  have b1 := pyAnd_pyShr v 8 7 127 (by norm_num) (by norm_num)
  have b2 := pyAnd_pyShr v 16 7 127 (by norm_num) (by norm_num)
  have b3 := pyAnd_pyShr v 24 7 127 (by norm_num) (by norm_num)
  have e0 : (n >>> 7) &&& 1 = if n.testBit 7 then 1 else 0 := by
    simpa using single_bit_and n 7 0
  have e1 : (n >>> 14) &&& 2 = if n.testBit 15 then 2 else 0 := by
    simpa using single_bit_and n 14 1
  have e2 : (n >>> 21) &&& 4 = if n.testBit 23 then 4 else 0 := by
    simpa using single_bit_and n 21 2
  have e3 : (n >>> 28) &&& 8 = if n.testBit 31 then 8 else 0 := by
    simpa using single_bit_and n 28 3
  have f0 : (n >>> 0) &&& 127 = n % 2 ^ 7 := by
    rw [Nat.shiftRight_zero, show (127 : Nat) = 2 ^ 7 - 1 from rfl,
      Nat.and_pow_two_sub_one_eq_mod]
  have f1 : (n >>> 8) &&& 127 = n / 2 ^ 8 % 2 ^ 7 := by
    rw [Nat.shiftRight_eq_div_pow, show (127 : Nat) = 2 ^ 7 - 1 from rfl,
      Nat.and_pow_two_sub_one_eq_mod]
  have f2 : (n >>> 16) &&& 127 = n / 2 ^ 16 % 2 ^ 7 := by
    rw [Nat.shiftRight_eq_div_pow, show (127 : Nat) = 2 ^ 7 - 1 from rfl,
      Nat.and_pow_two_sub_one_eq_mod]
  have f3 : (n >>> 24) &&& 127 = n / 2 ^ 24 % 2 ^ 7 := by
    rw [Nat.shiftRight_eq_div_pow, show (127 : Nat) = 2 ^ 7 - 1 from rfl,
      Nat.and_pow_two_sub_one_eq_mod]
  rw [serialPayload32, h0, h1, h2, h3, b0, b1, b2, b3, ← hn,
    e0, e1, e2, e3, f0, f1, f2, f3]
  cases n.testBit 7 <;> cases n.testBit 15 <;> cases n.testBit 23 <;>
    cases n.testBit 31 <;> rfl

/-- Claim C7: a `THIRTY_TWO_BITS` USB command is one control transfer whose
value field is the low 16 bits and whose index field is the high 16 bits of
the 32-bit value; in particular `set_target_position(-99)` produces
`(0x40, 0xE0, 65437, 65535, 0)`. -/
theorem usbSend32_value_index :
    (∀ (code : Nat) (v : Int),
        usbSend32 code v =
          (0x40, code, (v.emod (2 ^ 32)).toNat % 2 ^ 16, (v.emod (2 ^ 32)).toNat / 2 ^ 16, 0)) ∧
      set_target_position_usb (-99) = (0x40, 0xE0, 65437, 65535, 0) := by
  constructor
  · intro code v
    have hn : (v.emod (2 ^ 32)).toNat < 2 ^ 32 := by
      have h1 : v.emod (2 ^ 32) < (2 : Int) ^ 32 := Int.emod_lt_of_pos v (by positivity)
      have h0 : (0 : Int) ≤ v.emod (2 ^ 32) := Int.emod_nonneg v (by positivity)
      have hp : (2 : Int) ^ 32 = 4294967296 := by norm_num
      have hpn : (2 : Nat) ^ 32 = 4294967296 := by norm_num
      rw [hp] at h1 h0
      rw [hpn, hp]
      omega
    have hlow : pyAnd v 0xFFFF = (v.emod (2 ^ 32)).toNat % 2 ^ 16 := by
      have h := pyAnd_pyShr v 0 16 0xFFFF (by norm_num) (by norm_num)
      rw [pyShr, pow_zero, Int.fdiv_one] at h
      rw [h, Nat.shiftRight_zero, show (0xFFFF : Nat) = 2 ^ 16 - 1 from rfl,
        Nat.and_pow_two_sub_one_eq_mod]
    have hhigh : pyAnd (pyShr v 16) 0xFFFF = (v.emod (2 ^ 32)).toNat / 2 ^ 16 := by
      have h := pyAnd_pyShr v 16 16 0xFFFF (by norm_num) (by norm_num)
      rw [h, Nat.shiftRight_eq_div_pow, show (0xFFFF : Nat) = 2 ^ 16 - 1 from rfl,
        Nat.and_pow_two_sub_one_eq_mod]
      apply Nat.mod_eq_of_lt
      apply Nat.div_lt_of_lt_mul
      calc (v.emod (2 ^ 32)).toNat < 2 ^ 32 := hn
        _ = 2 ^ 16 * 2 ^ 16 := by norm_num
    rw [usbSend32, hlow, hhigh]
  · decide

/-! ### Signed/unsigned integer codec (claim C5) -/

theorem littleBytes_length : ∀ (l n : Nat), (littleBytes l n).length = l := by
  intro l
  induction l with
  | zero => intro n; rfl
  | succ l ih => intro n; simp [littleBytes, ih]

theorem unsigned_int_cons (b : Nat) (rest : List Nat) :
    unsigned_int (b :: rest) = b + 256 * unsigned_int rest := rfl

theorem unsigned_int_littleBytes :
    ∀ (l n : Nat), unsigned_int (littleBytes l n) = n % 2 ^ (8 * l) := by
  intro l
  induction l with
  | zero => intro n; simp [littleBytes, unsigned_int, Nat.mod_one]
  | succ l ih =>
    intro n
    rw [littleBytes, unsigned_int_cons, ih]
    have h : 2 ^ (8 * (l + 1)) = 256 * 2 ^ (8 * l) := by
      rw [show 8 * (l + 1) = 8 + 8 * l by ring, pow_add]
      norm_num
    rw [h, Nat.mod_mul]

theorem unsigned_int_as_sum :
    ∀ bytes : List Nat,
      unsigned_int bytes = ∑ i ∈ Finset.range bytes.length, bytes.getD i 0 * 256 ^ i := by
  intro bytes
  induction bytes with
  | nil => simp [unsigned_int]
  | cons b rest ih =>
    rw [unsigned_int_cons, List.length_cons, Finset.sum_range_succ']
    simp only [List.getD_cons_succ, List.getD_cons_zero, pow_zero, mul_one, pow_succ]
    rw [ih, Finset.mul_sum, add_comm]
    congr 1
    apply Finset.sum_congr rfl
    intro x _
    ring

/-- Claim C5: `signed_int` is two's-complement decoding (subtract `2^(8*len)`
when the raw little-endian value reaches `2^(8*len-1)`), encoding a
representable signed value and decoding it round-trips, and `unsigned_int`
is the plain little-endian interpretation. -/
theorem signed_int_spec (l : Nat) (hl : l = 1 ∨ l = 2 ∨ l = 4) :
    (∀ bytes : List Nat, bytes.length = l →
        signed_int bytes =
          if (unsigned_int bytes : Int) ≥ 2 ^ (8 * l - 1)
          then (unsigned_int bytes : Int) - 2 ^ (8 * l)
          else (unsigned_int bytes : Int)) ∧
      (∀ v : Int, -2 ^ (8 * l - 1) ≤ v → v < 2 ^ (8 * l - 1) →
        signed_int (unsigned_bytes_of l v) = v) ∧
      (∀ bytes : List Nat,
        unsigned_int bytes = ∑ i ∈ Finset.range bytes.length, bytes.getD i 0 * 256 ^ i) := by
  refine ⟨fun bytes hlen => ?_, fun v hv1 hv2 => ?_, unsigned_int_as_sum⟩
  · simp only [signed_int, hlen, Nat.mul_comm l 8]
  · have hl1 : 1 ≤ l := by rcases hl with rfl | rfl | rfl <;> norm_num
    obtain ⟨j, hj⟩ : ∃ j, 8 * l = j + 1 := ⟨8 * l - 1, by omega⟩
    have hj' : 8 * l - 1 = j := by omega
    have hMH : (2 : Int) ^ (8 * l) = 2 * 2 ^ (8 * l - 1) := by
      rw [hj, Nat.add_sub_cancel, pow_succ]
      ring
    have hHpos : (0 : Int) < 2 ^ (8 * l - 1) := by positivity
    have hMpos : (0 : Int) < 2 ^ (8 * l) := by positivity
    have hn0 : (0 : Int) ≤ v.emod (2 ^ (8 * l)) := Int.emod_nonneg v (by positivity)
    have hnM : v.emod (2 ^ (8 * l)) < 2 ^ (8 * l) := Int.emod_lt_of_pos v hMpos
    have hvm : v.emod (2 ^ (8 * l)) = v ∨ v.emod (2 ^ (8 * l)) = v + 2 ^ (8 * l) := by
      rcases le_or_lt 0 v with h | h
      · left
        exact Int.emod_eq_of_lt h (by omega)
      · right
        have h1 : (v + 2 ^ (8 * l)) % (2 ^ (8 * l) : Int) = v % (2 ^ (8 * l) : Int) := by
          have h0 := Int.add_mul_emod_self_left v (2 ^ (8 * l)) 1
          rwa [mul_one] at h0
        have h2 : (v + 2 ^ (8 * l)) % (2 ^ (8 * l) : Int) = v + 2 ^ (8 * l) :=
          Int.emod_eq_of_lt (by omega) (by omega)
        show v % ((2 : Int) ^ (8 * l)) = v + 2 ^ (8 * l)
        rw [← h1, h2]
    have hbytes : unsigned_bytes_of l v = littleBytes l (v.emod ((2 : Int) ^ (8 * l))).toNat :=
      rfl
    have hlen2 : (unsigned_bytes_of l v).length = l := by
      rw [hbytes]
      exact littleBytes_length l _
    have huint : (unsigned_int (unsigned_bytes_of l v) : Int) = v.emod ((2 : Int) ^ (8 * l)) := by
      rw [hbytes, unsigned_int_littleBytes]
      have hcast : (((2 : Nat) ^ (8 * l) : Nat) : Int) = (2 : Int) ^ (8 * l) := by
        push_cast
        ring
      have h1 : (v.emod ((2 : Int) ^ (8 * l))).toNat < 2 ^ (8 * l) := by omega
      rw [Nat.mod_eq_of_lt h1, Int.toNat_of_nonneg hn0]
    simp only [signed_int, hlen2, Nat.mul_comm l 8]
    rw [huint]
    rcases hvm with hvm | hvm <;> split_ifs with hcond <;> omega

/-- Witness for claim C5: decoding the 4-byte little-endian encoding of `-99`
recovers `-99`. -/
theorem signed_int_spec_witness :
    ((4 : Nat) = 1 ∨ (4 : Nat) = 2 ∨ (4 : Nat) = 4) ∧
      signed_int (unsigned_bytes_of 4 (-99)) = -99 :=
  ⟨by norm_num, (signed_int_spec 4 (by norm_num)).2.1 (-99) (by norm_num) (by norm_num)⟩

/-! ### Block reads and the serial response path (claims C8, C9) -/

/-- Claim C8: a USB or I2C block read whose transport returns a byte count
different from the declared length fails with the length-mismatch error
naming both counts, and returns no value; when the counts agree the read
succeeds. -/
theorem blockRead_length_check {α : Type} (L : Nat) (fmt : Option (List Nat → α))
    (result : List Nat) :
    (result.length ≠ L →
        usbBlockRead L fmt result =
            Except.error ("Expected to read " ++ toString L ++ " bytes, got " ++
              toString result.length ++ ".") ∧
          i2cBlockRead L fmt result =
            Except.error ("Expected to read " ++ toString L ++ " bytes, got " ++
              toString result.length ++ ".")) ∧
      (result.length = L →
        (∃ v, usbBlockRead L fmt result = Except.ok v) ∧
          (∃ v, i2cBlockRead L fmt result = Except.ok v)) := by
  refine ⟨fun h => ⟨?_, ?_⟩, fun h => ⟨?_, ?_⟩⟩
  · rw [usbBlockRead.eq_def, if_pos h]
  · rw [i2cBlockRead.eq_def, if_pos h]
  · rw [usbBlockRead.eq_def, if_neg (fun hne => hne h)]
    cases fmt with
    | none => exact ⟨Sum.inl result, rfl⟩
    | some f => exact ⟨Sum.inr (f result), rfl⟩
  · rw [i2cBlockRead.eq_def, if_neg (fun hne => hne h)]
    cases fmt with
    | none => exact ⟨Sum.inl result, rfl⟩
    | some f => exact ⟨Sum.inr (f result), rfl⟩

/-- Witness for claim C8: requesting 4 bytes and receiving 2 yields the
error "Expected to read 4 bytes, got 2.". -/
theorem blockRead_length_check_witness :
    ([0, 0] : List Nat).length ≠ 4 ∧
      usbBlockRead 4 (none : Option (List Nat → Nat)) [0, 0] =
        Except.error "Expected to read 4 bytes, got 2." :=
  ⟨by decide, by
    rw [((blockRead_length_check 4 (none : Option (List Nat → Nat)) [0, 0]).1
      (by decide)).1]
    rfl⟩

/-- Claim C9: the serial response path with response-CRC enabled, reading at
most `L + 1` bytes: a short response is the missing-CRC framing error;
a full response is split into message and trailing CRC byte, and the read
returns the message iff the recomputed CRC-7 matches, failing with
"Response CRC check failed" otherwise. -/
theorem serialReadResponse_check (L : Nat) (response : List Nat)
    (_hle : response.length ≤ L + 1) (hb : ∀ b ∈ response, b < 256) :
    (response.length < L + 1 →
        serialReadResponseCrc L response =
          Except.error "Response does not contain CRC byte") ∧
      (response.length = L + 1 →
        (response.getLastD 0 = crc7 (response.take L) →
            serialReadResponseCrc L response = Except.ok (response.take L)) ∧
          (response.getLastD 0 ≠ crc7 (response.take L) →
            serialReadResponseCrc L response =
              Except.error "Response CRC check failed")) := by
  have hcrc : getCrc7 (response.take L) = some [crc7 (response.take L)] := by
    rw [getCrc7, if_pos]
    have hlt : crc7 (response.take L) < 128 :=
      crc7_lt_128 _ (fun b hbm => hb b (List.take_subset L response hbm))
    omega
  refine ⟨fun h => ?_, fun h => ⟨fun heq => ?_, fun hne => ?_⟩⟩
  · rw [serialReadResponseCrc, if_pos (by omega)]
  · rw [serialReadResponseCrc, if_neg (fun hc => hc h)]
    simp only [hcrc]
    rw [if_pos (by rw [heq])]
  · rw [serialReadResponseCrc, if_neg (fun hc => hc h)]
    simp only [hcrc]
    rw [if_neg (by simpa using hne)]

/-- Witness for claim C9: a 1-byte message with its correct CRC byte
appended is accepted and the message is returned. -/
theorem serialReadResponse_check_witness :
    (([5, crc7 [5]] : List Nat).length ≤ 1 + 1 ∧
        (∀ b ∈ ([5, crc7 [5]] : List Nat), b < 256)) ∧
      serialReadResponseCrc 1 [5, crc7 [5]] = Except.ok (([5, crc7 [5]] : List Nat).take 1) :=
  ⟨⟨by decide, by decide⟩,
    ((serialReadResponse_check 1 [5, crc7 [5]] (by decide) (by decide)).2
      (by decide)).1 (by decide)⟩

end Ticlib
